import Mathlib

/-!
Verification development for the project/workspace classification engine and
repository URL codec of the claude-mcp-generator repository
(src/utils/workspace-detector.js and src/utils/repository-manager.js).

Strings are modelled as `List Char` (JavaScript strings); string literals are
written as `("...").data`.  Asynchronous filesystem primitives are modelled as
an oracle record of functions returning `Except Unit _` where the source awaits
a call that may throw; functions of the source that catch all of their own
errors internally are modelled as total oracle functions.  JavaScript numbers
are natural numbers here: every quantity involved (indicator weights, counts,
confidence) is a non-negative integer in the source.
-/

/-- Head-matching helper: if `pat` is an initial run of `s`, return the rest.
Models `String.prototype.startsWith` and anchored literal matching inside the
regular expressions of repository-manager.js. -/
def stripLead : List Char → List Char → Option (List Char)
  | [], s => some s
  | _ :: _, [] => none
  | p :: ps, c :: cs => if p = c then stripLead ps cs else none

/-- The dollar character starting the replacement patterns of
`String.prototype.replace`. -/
def dollar : Char := '$'

/-- The backquote character of the replacement pattern that inserts the
portion of the string preceding the match. -/
def backquote : Char := Char.ofNat 96

/-- The single-quote character of the replacement pattern that inserts the
portion of the string following the match. -/
def singleQuote : Char := Char.ofNat 39

/-- Locate the first occurrence of `pat` (scanning left to right), returning
the portion of the string before the match and the portion after it. -/
def findFirst (pat : List Char) : List Char → Option (List Char × List Char)
  | [] => (match stripLead pat [] with
           | some rest => some ([], rest)
           | none => none)
  | c :: cs => (match stripLead pat (c :: cs) with
                | some rest => some ([], rest)
                | none => (findFirst pat cs).map (fun p => (c :: p.1, p.2)))

/-- ECMAScript GetSubstitution for a string search value (zero capture
groups, no named captures): in the replacement string, "$$" inserts "$",
"$&" inserts the matched search string, a dollar followed by a backquote
inserts the portion of the subject before the match, a dollar followed by a
single quote inserts the portion after the match, and any other "$"
(including "$n", since there are no captures) is literal. -/
def getSubstitution (matched before after : List Char) : List Char → List Char
  | [] => []
  | [c] => [c]
  | c :: d :: rest =>
    if c = dollar then
      (if d = dollar then dollar :: getSubstitution matched before after rest
       else if d = '&' then matched ++ getSubstitution matched before after rest
       else if d = backquote then before ++ getSubstitution matched before after rest
       else if d = singleQuote then after ++ getSubstitution matched before after rest
       else dollar :: getSubstitution matched before after (d :: rest))
    else c :: getSubstitution matched before after (d :: rest)

/-- Model of `String.prototype.replace(pat, rep)` with a string first
argument: replace the first occurrence of `pat` with GetSubstitution of the
replacement string (the matched text of a string search is the search string
itself), or return the string unchanged when `pat` does not occur.  Used by
`generateRepositoryUrl` (template placeholder substitution, where the
replacement is user-supplied) and by `analyzeLernaWorkspace`
(`pattern.replace('/*', '')`, with an empty replacement). -/
def replaceFirst (pat rep s : List Char) : List Char :=
  match findFirst pat s with
  | none => s
  | some (before, after) => before ++ getSubstitution pat before after rep ++ after

/-- Split a list at the first occurrence of character `ch`:
models a greedy character class `([^ch]+)` followed by the literal `ch`
(the class cannot cross `ch`, so the captured run is everything before the
first `ch`).  Emptiness of the capture is checked at the use sites. -/
def splitFirst (ch : Char) : List Char → Option (List Char × List Char)
  | [] => none
  | c :: cs =>
    if c = ch then some ([], cs)
    else (splitFirst ch cs).map (fun p => (c :: p.1, p.2))

/-- Split at the rightmost occurrence of '/' that has a non-empty suffix after
it.  Models the backtracking of a greedy `(.+)` followed by `\/` followed by a
tail that matches any non-empty string: the engine tries the longest prefix
first, i.e. the rightmost '/', and rejects splits whose suffix is empty. -/
def lastSlashSplit : List Char → Option (List Char × List Char)
  | [] => none
  | c :: cs =>
    match lastSlashSplit cs with
    | some (a, b) => some (c :: a, b)
    | none => if c = '/' ∧ cs ≠ [] then some ([], cs) else none

/-- Lazy capture `(.+?)` followed by a tail predicate: return the shortest
non-empty prefix whose remainder satisfies `valid`, together with that
remainder.  Models the reluctant quantifier of the repo-name captures. -/
def lazyCut (valid : List Char → Bool) : List Char → Option (List Char × List Char)
  | [] => none
  | c :: cs =>
    if valid cs then some ([c], cs)
    else (lazyCut valid cs).map (fun p => (c :: p.1, p.2))

/-- Remainder accepted after the SSH repo capture: `(?:\.git)?$`. -/
def sshRepoValid (q : List Char) : Bool :=
  q.isEmpty || q = (".git").data

/-- Remainder accepted after the HTTPS repo capture:
`(?:\.git)?(?:\/.*)?$`, i.e. empty, ".git", anything starting with '/',
or ".git/" followed by anything. -/
def httpsRepoValid (q : List Char) : Bool :=
  q.isEmpty || q = (".git").data ||
  (stripLead (("/").data) q).isSome ||
  (stripLead ((".git/").data) q).isSome

/-- The part of the SSH regular expression after the literal "git@":
`([^:]+):(.+)\/(.+?)(?:\.git)?$` — host is everything before the first ':'
(non-empty), then greedily the owner up to the last '/' with a non-empty
suffix, then the lazy repo capture with optional ".git" stripped. -/
def sshInner (s : List Char) : Option (List Char × List Char × List Char) :=
  match splitFirst ':' s with
  | none => none
  | some (h, t) =>
    if h = [] then none
    else
      match t with
      | [] => none
      | c :: rest =>
        -- `(.+)` forces at least one character before the '/' that is split on,
        -- so the split character is searched within `rest`.
        match lastSlashSplit rest with
        | none => none
        | some (a, b) =>
          match lazyCut sshRepoValid b with
          | none => none
          | some (r, _) => some (h, c :: a, r)

/-- Leftmost-match search for `git@([^:]+):(.+)\/(.+?)(?:\.git)?$`:
try every start position in increasing order; a position can only match if the
literal "git@" occurs there and `sshInner` accepts the rest. -/
def sshSearch : List Char → Option (List Char × List Char × List Char)
  | [] => none
  | c :: cs =>
    match stripLead (("git@").data) (c :: cs) with
    | some tail =>
      (match sshInner tail with
       | some r => some r
       | none => sshSearch cs)
    | none => sshSearch cs

/-- Lazy owner capture of the standard HTTPS shape: `(.+?)\/` followed by a
tail that must be non-empty — the shortest non-empty prefix ending right
before a '/' whose suffix is non-empty. -/
def lazyOwnerAux : List Char → Option (List Char × List Char)
  | [] => none
  | c :: cs =>
    if c = '/' ∧ cs ≠ [] then some ([], cs)
    else (lazyOwnerAux cs).map (fun p => (c :: p.1, p.2))

/-- The owner capture `(.+?)\/` demands at least one character before the '/', so the first
character is consumed unconditionally and the split is searched after it. -/
def lazyOwnerSplit : List Char → Option (List Char × List Char)
  | [] => none
  | c :: cs => (lazyOwnerAux cs).map (fun p => (c :: p.1, p.2))

/-- The part of the standard HTTPS regular expression after "https://":
`([^/]+)\/(.+?)\/(.+?)(?:\.git)?(?:\/.*)?$`. -/
def httpsStdInner (s : List Char) : Option (List Char × List Char × List Char) :=
  match splitFirst '/' s with
  | none => none
  | some (h, u) =>
    if h = [] then none
    else
      match lazyOwnerSplit u with
      | none => none
      | some (o, v) =>
        match lazyCut httpsRepoValid v with
        | none => none
        | some (r, _) => some (h, o, r)

/-- Leftmost-match search for
`https:\/\/([^/]+)\/(.+?)\/(.+?)(?:\.git)?(?:\/.*)?$`. -/
def httpsSearch : List Char → Option (List Char × List Char × List Char)
  | [] => none
  | c :: cs =>
    match stripLead (("https://").data) (c :: cs) with
    | some tail =>
      (match httpsStdInner tail with
       | some r => some r
       | none => httpsSearch cs)
    | none => httpsSearch cs

/-- The part of the Azure regular expression after the literal
"https://dev.azure.com/": `([^/]+)\/([^/]+)\/_git\/(.+)` — org and project are
the runs before the first two slashes, then the literal "_git/", then a
non-empty greedy repo capture running to the end. -/
def azureInner (s : List Char) : Option (List Char × List Char × List Char) :=
  match splitFirst '/' s with
  | none => none
  | some (g, u) =>
    if g = [] then none
    else
      match splitFirst '/' u with
      | none => none
      | some (p, v) =>
        if p = [] then none
        else
          match stripLead (("_git/").data) v with
          | none => none
          | some r => if r = [] then none else some (g, p, r)

/-- Leftmost-match search for
`https:\/\/dev\.azure\.com\/([^/]+)\/([^/]+)\/_git\/(.+)`. -/
def azureSearch : List Char → Option (List Char × List Char × List Char)
  | [] => none
  | c :: cs =>
    match stripLead (("https://dev.azure.com/").data) (c :: cs) with
    | some tail =>
      (match azureInner tail with
       | some r => some r
       | none => azureSearch cs)
    | none => azureSearch cs

/-- The provider tags of repository-manager.js (keys of `repositoryTypes`). -/
inductive ProviderTag where
  | github | gitea | gitlab | bitbucket | azure | custom
  deriving DecidableEq

/-- Result of `parseRepositoryUrl`: the `info` object, each field `null` until
a capture assigns it. -/
structure RepoInfo where
  host : Option (List Char)
  owner : Option (List Char)
  repo : Option (List Char)
  org : Option (List Char)
  deriving DecidableEq

/-- The all-null `info` object `{ host: null, owner: null, repo: null, org: null }`. -/
def allNullInfo : RepoInfo := ⟨none, none, none, none⟩

/-- Model of `parseRepositoryUrl(url, type)` of repository-manager.js.  The function
never throws: a url matching neither branch shape leaves every field null. -/
def parseRepositoryUrl (url : List Char) (type : ProviderTag) : RepoInfo :=
  if (stripLead (("git@").data) url).isSome then
    -- SSH format: git@host:owner/repo.git
    match sshSearch url with
    | some (h, o, r) => ⟨some h, some o, some r, none⟩
    | none => allNullInfo
  else if (stripLead (("https://").data) url).isSome then
    if type = ProviderTag.azure then
      -- https://dev.azure.com/org/project/_git/repo
      match azureSearch url with
      | some (g, p, r) => ⟨some (("dev.azure.com").data), some p, some r, some g⟩
      | none => allNullInfo
    else
      -- Standard format: https://host/owner/repo(.git)
      match httpsSearch url with
      | some (h, o, r) => ⟨some h, some o, some r, none⟩
      | none => allNullInfo
  else allNullInfo

/-- JavaScript `a || b` for an optional string `a` (absent and the empty
string are both falsy). -/
def jsOrOpt (a : Option (List Char)) (b : List Char) : List Char :=
  match a with
  | some s => if s.isEmpty then b else s
  | none => b

/-! ## Workspace detector (src/utils/workspace-detector.js) -/
/-- One entry of `fs.readdir(rootDir, { withFileTypes: true })`. -/
structure DirEntry where
  name : List Char
  isDirectory : Bool
  deriving DecidableEq

/-- A folder entry of a VS Code workspace descriptor (`folders` array):
a path and an optional display name. -/
structure WsFolder where
  path : List Char
  name : Option (List Char)
  deriving DecidableEq

/-- The parsed workspace configuration object, restricted to the fields the
convention sub-analyzers read: `packages` (Lerna) and `folders` (VS Code).
The Nx analyzer reads a `projects` field only to copy it into
`detection.projectsConfig`, which no claim mentions; it is not modelled. -/
structure WsConfig where
  packages : Option (List (List Char))
  folders : Option (List WsFolder)
  deriving DecidableEq

/-- A project candidate as returned by `analyzeProjectDirectory`.
`confidence` is a natural number: the source computes
`Math.min(100, (totalWeight / 20) * 100)` with exact value `5 * totalWeight`,
written here as `totalWeight * 100 / 20` so that natural division is exact
(20 divides `totalWeight * 100`).  `isExternal` is absent on scan candidates
(JavaScript objects gain it only in the VS Code analyzer); absence is modelled
as `false`. -/
structure Candidate where
  name : List Char
  path : List Char
  absolutePath : List Char
  type : List Char
  confidence : Nat
  indicators : List (List Char)
  fileCount : Nat
  size : Nat
  modified : Nat
  isExternal : Bool := false
  deriving DecidableEq

/-- The workspace structure labels 'single-project' / 'multi-project' /
'workspace'. -/
inductive StructureKind where
  | singleProject | multiProject | workspace
  deriving DecidableEq

/-- The `detection` object of `detectWorkspace`.  `struct` is the JavaScript
field named `structure` (a Lean keyword).  `externalProjects` mirrors the
field assigned by `analyzeVSCodeWorkspace`. -/
structure Detection where
  isWorkspace : Bool
  workspaceType : Option (List Char)
  workspaceConfig : Option WsConfig
  projects : List Candidate
  struct : StructureKind
  packagePatterns : Option (List (List Char))
  externalProjects : Option (List Candidate)
  deriving DecidableEq

/-- The filesystem oracle: the file-probe capability the engine consumes
(spec §6).  `Except Unit` models an awaited call that may throw; oracle
functions that are total model source functions that catch their own errors:
`countFiles` returns 0 on error, `extractName` returns null on error
(`extractProjectName`), `readConfigFor` returns null on error
(`readWorkspaceConfig`).  `probe dir pat` is the combined existence check of
one indicator pattern under one directory (literal `fs.pathExists`, or `glob`
followed by `fs.pathExists` on the first match, which exists iff the glob
matched).  `pnpmPatterns`/`yarnPatterns` abstract the pnpm and Yarn analyzers,
which only read files (reads may throw) and compute a `packagePatterns` list —
they never touch `projects`. -/
structure FSOracle where
  probe : List Char → List Char → Except Unit Bool
  stat : List Char → Except Unit (Nat × Nat)
  countFiles : List Char → Nat
  extractName : List Char → List Char → Option (List Char)
  readdirEntries : List Char → Except Unit (List DirEntry)
  readdirNames : List Char → Except Unit (List (List Char))
  statIsDir : List Char → Except Unit Bool
  pathExists : List Char → Except Unit Bool
  readConfigFor : List Char → List Char → Option WsConfig
  pnpmPatterns : List Char → Except Unit (Option (List (List Char)))
  yarnPatterns : List Char → Except Unit (Option (List (List Char)))

/-- Model of `path.join(a, b)` for a directory and a relative name (no normalization
of '.' or '..' segments is needed for the paths this development builds). -/
def pjoin (a b : List Char) : List Char := a ++ '/' :: b

/-- Model of `path.basename`: the part after the last '/' (paths here have no trailing
slash). -/
def basename (p : List Char) : List Char :=
  (p.reverse.takeWhile (fun c => c ≠ '/')).reverse

/-- Model of `path.isAbsolute`. -/
def isAbsolutePath (p : List Char) : Bool :=
  match p with
  | '/' :: _ => true
  | _ => false

/-- Model of `path.resolve(rootDir, folderPath)` for a relative folder path; absolute
paths are handled at the call site.  As with `pjoin`, '.'/'..' normalization
is not modelled: every path this development feeds in is already clean. -/
def presolve (root p : List Char) : List Char := root ++ '/' :: p

/-- Model of `this.projectIndicators`: pattern, type tag and weight, in the source's
insertion order (iteration order of `Object.entries`). -/
def projectIndicators : List (List Char × List Char × Nat) :=
  [ ((("package.json").data), (("nodejs").data, 10))
  , ((("tsconfig.json").data), (("typescript").data, 8))
  , ((("next.config.js").data), (("nextjs").data, 15))
  , ((("nuxt.config.js").data), (("nuxtjs").data, 9))
  , ((("vue.config.js").data), (("vue").data, 9))
  , ((("angular.json").data), (("angular").data, 10))
  , ((("svelte.config.js").data), (("svelte").data, 9))
  , ((("pyproject.toml").data), (("python").data, 10))
  , ((("requirements.txt").data), (("python").data, 8))
  , ((("setup.py").data), (("python").data, 9))
  , ((("Pipfile").data), (("python").data, 8))
  , ((("poetry.lock").data), (("python").data, 7))
  , ((("Cargo.toml").data), (("rust").data, 10))
  , ((("go.mod").data), (("go").data, 10))
  , ((("go.sum").data), (("go").data, 8))
  , ((("*.csproj").data), (("dotnet").data, 10))
  , ((("*.vbproj").data), (("dotnet").data, 10))
  , ((("*.fsproj").data), (("dotnet").data, 10))
  , ((("pom.xml").data), (("java").data, 9))
  , ((("build.gradle").data), (("java").data, 9))
  , ((("gradle.properties").data), (("java").data, 7))
  , ((("composer.json").data), (("php").data, 10))
  , ((("Gemfile").data), (("ruby").data, 10))
  , ((("Dockerfile").data), (("docker").data, 5))
  , ((("docker-compose.yml").data), (("docker").data, 6)) ]

/-- Model of `this.workspaceIndicators`: pattern and workspace type label, in source
order. -/
def workspaceIndicators : List (List Char × List Char) :=
  [ ((("workspace.json").data), (("Generic Workspace").data))
  , ((("workspace.yaml").data), (("Generic Workspace").data))
  , ((("workspace.yml").data), (("Generic Workspace").data))
  , ((("*.code-workspace").data), (("VS Code Workspace").data))
  , ((("lerna.json").data), (("Lerna Monorepo").data))
  , ((("nx.json").data), (("Nx Workspace").data))
  , ((("rush.json").data), (("Rush Monorepo").data))
  , ((("pnpm-workspace.yaml").data), (("pnpm Workspace").data))
  , ((("pnpm-lock.yaml").data), (("pnpm Workspace").data))
  , ((("yarn.lock").data), (("Yarn Workspace").data))
  , ((("WORKSPACE").data), (("Bazel Workspace").data))
  , ((("WORKSPACE.bazel").data), (("Bazel Workspace").data))
  , ((("Cargo.toml").data), (("Cargo Workspace").data))
  , ((("pom.xml").data), (("Maven Multi-Module").data))
  , ((("*.sln").data), ((".NET Solution").data)) ]

/-- Model of `shouldIgnoreDirectory(dirName)`. -/
def shouldIgnoreDirectory (n : List Char) : Bool :=
  ([ (("node_modules").data), ((".git").data), ((".svn").data), ((".hg").data)
   , (("dist").data), (("build").data), (("target").data), (("bin").data), (("obj").data)
   , (("__pycache__").data), ((".pytest_cache").data)
   , ((".vscode").data), ((".idea").data), ((".vs").data)
   , (("coverage").data), ((".nyc_output").data) ]).contains n ||
  (match n with
   | '.' :: _ => true
   | _ => false)

/-- The indicator loop of `analyzeProjectDirectory`: walk the registry in
order, accumulating the matched pattern keys (insertion order of the
`indicators` object), `totalWeight`, `maxWeight` and `primaryType` (strict
`>` comparison: the first indicator reaching the maximal weight keeps it).
A probe that throws escapes the loop — the enclosing try/catch of
`analyzeProjectDirectory` is applied by the caller. -/
def scoreLoop (o : FSOracle) (dirPath : List Char) :
    List (List Char × List Char × Nat) →
    List (List Char) × Nat × Nat × List Char →
    Except Unit (List (List Char) × Nat × Nat × List Char)
  | [], st => Except.ok st
  | (pat, ty, w) :: rest, (inds, tot, mx, pty) =>
    match o.probe dirPath pat with
    | Except.error e => Except.error e
    | Except.ok true =>
      scoreLoop o dirPath rest
        (inds ++ [pat], tot + w, if w > mx then w else mx, if w > mx then ty else pty)
    | Except.ok false => scoreLoop o dirPath rest (inds, tot, mx, pty)

/-- Model of `analyzeProjectDirectory(dirPath, dirName)`: score the directory against
every project indicator; `null` when no indicator matched, when a probe threw
(the try/catch wraps the whole loop) or when the final `fs.stat` threw.
`name` is the extracted project name with the directory name as fallback
(JavaScript `||`, so an extracted empty string also falls back). -/
def analyzeProjectDirectory (o : FSOracle) (dirPath dirName : List Char) : Option Candidate :=
  match scoreLoop o dirPath projectIndicators ([], 0, 0, (("unknown").data)) with
  | Except.error _ => none
  | Except.ok (inds, tot, _mx, pty) =>
    if tot = 0 then none
    else
      -- Math.min(100, (totalWeight / 20) * 100); exact value 5 * totalWeight
      let confidence := min 100 (tot * 100 / 20)
      match o.stat dirPath with
      | Except.error _ => none
      | Except.ok (sz, mt) =>
        some { name := jsOrOpt (o.extractName dirPath pty) dirName
             , path := dirName
             , absolutePath := dirPath
             , type := pty
             , confidence := confidence
             , indicators := inds
             , fileCount := o.countFiles dirPath
             , size := sz
             , modified := mt
             , isExternal := false }

/-- Stable insertion of a candidate into a confidence-descending list: the
new element goes after every element of confidence ≥ its own. -/
def insertDesc (c : Candidate) : List Candidate → List Candidate
  | [] => [c]
  | x :: xs => if c.confidence ≤ x.confidence then x :: insertDesc c xs else c :: x :: xs

/-- Model of `projects.sort((a, b) => b.confidence - a.confidence)`: a stable sort by
confidence descending (Array.prototype.sort is stable, so any stable sorting
algorithm with this comparator computes the same list). -/
def sortByConfidence (l : List Candidate) : List Candidate :=
  l.foldl (fun acc c => insertDesc c acc) []

/-- Model of `scanForProjects(rootDir)`: analyze the root itself (path "."), then each
non-ignored immediate subdirectory in listing order, and sort by confidence
descending.  Any error reaching the function's own try/catch yields `[]`
(only `fs.readdir` can throw here; `analyzeProjectDirectory` catches its
errors internally). -/
def scanForProjects (o : FSOracle) (rootDir : List Char) : List Candidate :=
  match o.readdirEntries rootDir with
  | Except.error _ => []
  | Except.ok items =>
    let directories :=
      (items.filter (fun it => it.isDirectory && !shouldIgnoreDirectory it.name)).map
        (fun it => it.name)
    let rootProject := analyzeProjectDirectory o rootDir ((".").data)
    let base := match rootProject with
                | some p => [p]
                | none => []
    let projects :=
      base ++ directories.filterMap (fun dn => analyzeProjectDirectory o (pjoin rootDir dn) dn)
    sortByConfidence projects

/-- Model of `findWorkspaceIndicators(rootDir)`: first indicator whose pattern exists
wins; the config is read through `readWorkspaceConfig`, which catches its own
errors (hence a total oracle function).  A probe that throws escapes to
`detectWorkspace`'s catch. -/
def findWorkspaceIndicators (o : FSOracle) (rootDir : List Char) :
    List (List Char × List Char) → Except Unit (Option (List Char × Option WsConfig))
  | [] => Except.ok none
  | (pat, ty) :: rest =>
    match o.probe rootDir pat with
    | Except.error e => Except.error e
    | Except.ok true => Except.ok (some (ty, o.readConfigFor rootDir pat))
    | Except.ok false => findWorkspaceIndicators o rootDir rest

/-- The inner loop of `analyzeLernaWorkspace` over the subdirectories of one
packages directory: `fs.stat` may throw (the exception reaches
`detectWorkspace`'s catch with the detection as mutated so far, carried in the
error payload); a directory scoring to a candidate is pushed unless some
already-present project has the same relative `path`. -/
def lernaSubdirs (o : FSOracle) (rootDir cleanPattern : List Char) :
    List (List Char) → Detection → Except Detection Detection
  | [], det => Except.ok det
  | sd :: rest, det =>
    let projectPath := pjoin (pjoin rootDir cleanPattern) sd
    match o.statIsDir projectPath with
    | Except.error _ => Except.error det
    | Except.ok isDir =>
      let det' :=
        if isDir then
          match analyzeProjectDirectory o projectPath (cleanPattern ++ '/' :: sd) with
          | some project =>
            if det.projects.any (fun p => p.path = project.path) then det
            else { det with projects := det.projects ++ [project] }
          | none => det
        else det
      lernaSubdirs o rootDir cleanPattern rest det'

/-- The outer loop of `analyzeLernaWorkspace` over the declared package
patterns: `cleanPattern = pattern.replace('/*', '')`; a missing packages
directory is skipped; `fs.pathExists`/`fs.readdir` may throw. -/
def lernaPats (o : FSOracle) (rootDir : List Char) :
    List (List Char) → Detection → Except Detection Detection
  | [], det => Except.ok det
  | pat :: rest, det =>
    let cleanPattern := replaceFirst (("/*").data) [] pat
    let packagesDir := pjoin rootDir cleanPattern
    match o.pathExists packagesDir with
    | Except.error _ => Except.error det
    | Except.ok true =>
      match o.readdirNames packagesDir with
      | Except.error _ => Except.error det
      | Except.ok subdirs =>
        match lernaSubdirs o rootDir cleanPattern subdirs det with
        | Except.error d => Except.error d
        | Except.ok det' => lernaPats o rootDir rest det'
    | Except.ok false => lernaPats o rootDir rest det

/-- Model of `analyzeLernaWorkspace(rootDir, detection)`: only runs when the workspace
config declares `packages`; records the patterns, then scans the declared
package directories. -/
def analyzeLernaWorkspace (o : FSOracle) (rootDir : List Char) (det : Detection) :
    Except Detection Detection :=
  match det.workspaceConfig with
  | none => Except.ok det
  | some cfg =>
    match cfg.packages with
    | none => Except.ok det
    | some pkgs =>
      lernaPats o rootDir pkgs { det with packagePatterns := some pkgs }

/-- The loop of `analyzeVSCodeWorkspace` over the declared folders.
`externalProjects` is a local array: when `fs.pathExists` throws, the
exception propagates before `detection.projects` was reassigned, so the error
payload is only the collected external list (discarded by the caller).  An
entry pointing at an existing path different from the root is scored; the
resulting candidate is marked external and its `path` is overwritten with the
declared folder name (or the directory's base name when no name is
declared). -/
def vscodeFolders (o : FSOracle) (rootDir : List Char) :
    List WsFolder → List Candidate → Except Unit (List Candidate)
  | [], acc => Except.ok acc
  | f :: rest, acc =>
    let absolutePath := if isAbsolutePath f.path then f.path else presolve rootDir f.path
    match o.pathExists absolutePath with
    | Except.error e => Except.error e
    | Except.ok ex =>
      if ex ∧ absolutePath ≠ rootDir then
        let folderName := jsOrOpt f.name (basename absolutePath)
        match analyzeProjectDirectory o absolutePath folderName with
        | some project =>
          vscodeFolders o rootDir rest
            (acc ++ [{ project with isExternal := true
                                  , absolutePath := absolutePath
                                  , path := folderName }])
        | none => vscodeFolders o rootDir rest acc
      else vscodeFolders o rootDir rest acc

/-- Model of `analyzeVSCodeWorkspace(rootDir, detection)`: appends every external
candidate to `projects` (no deduplication) and records them in
`externalProjects`; on an exception `detection.projects` is still unchanged
because the reassignment happens after the loop. -/
def analyzeVSCodeWorkspace (o : FSOracle) (rootDir : List Char) (det : Detection) :
    Except Detection Detection :=
  match det.workspaceConfig with
  | none => Except.ok det
  | some cfg =>
    match cfg.folders with
    | none => Except.ok det
    | some folders =>
      match vscodeFolders o rootDir folders [] with
      | Except.error _ => Except.error det
      | Except.ok ext =>
        Except.ok { det with projects := det.projects ++ ext, externalProjects := some ext }

/-- Model of `analyzePnpmWorkspace`: reads pnpm-workspace.yaml and sets
`packagePatterns` when its regex matches; file reads may throw (before any
mutation).  The read-and-parse is abstracted by the oracle. -/
def analyzePnpmWorkspace (o : FSOracle) (rootDir : List Char) (det : Detection) :
    Except Detection Detection :=
  match o.pnpmPatterns rootDir with
  | Except.error _ => Except.error det
  | Except.ok none => Except.ok det
  | Except.ok (some pats) => Except.ok { det with packagePatterns := some pats }

/-- Model of `analyzeYarnWorkspace`: reads package.json and sets `packagePatterns`
from its `workspaces` field; reads may throw (before any mutation). -/
def analyzeYarnWorkspace (o : FSOracle) (rootDir : List Char) (det : Detection) :
    Except Detection Detection :=
  match o.yarnPatterns rootDir with
  | Except.error _ => Except.error det
  | Except.ok none => Except.ok det
  | Except.ok (some pats) => Except.ok { det with packagePatterns := some pats }

/-- Model of `analyzeNxWorkspace`: only copies `workspaceConfig.projects` into
`detection.projectsConfig` (a field no claim mentions); it performs no
filesystem access and cannot throw. -/
def analyzeNxWorkspace (det : Detection) : Except Detection Detection :=
  Except.ok det

/-- Model of `analyzeWorkspaceStructure(rootDir, detection)`: dispatch on the detected
workspace type label. -/
def analyzeWorkspaceStructure (o : FSOracle) (rootDir : List Char) (det : Detection) :
    Except Detection Detection :=
  if det.workspaceType = some (("Lerna Monorepo").data) then
    analyzeLernaWorkspace o rootDir det
  else if det.workspaceType = some (("pnpm Workspace").data) then
    analyzePnpmWorkspace o rootDir det
  else if det.workspaceType = some (("Yarn Workspace").data) then
    analyzeYarnWorkspace o rootDir det
  else if det.workspaceType = some (("Nx Workspace").data) then
    analyzeNxWorkspace det
  else if det.workspaceType = some (("VS Code Workspace").data) then
    analyzeVSCodeWorkspace o rootDir det
  else Except.ok det

/-- The initial `detection` object of `detectWorkspace`. -/
def initialDetection : Detection :=
  { isWorkspace := false
  , workspaceType := none
  , workspaceConfig := none
  , projects := []
  , struct := StructureKind.singleProject
  , packagePatterns := none
  , externalProjects := none }

/-- Model of `detectWorkspace(rootDir)`.  The surrounding try/catch returns the
detection object as mutated so far when any un-caught exception escapes:
before any mutation for `findWorkspaceIndicators` (yielding the initial
object), and with the analyzer's partial mutations for
`analyzeWorkspaceStructure` (the error payload). -/
def detectWorkspace (o : FSOracle) (rootDir : List Char) : Detection :=
  match findWorkspaceIndicators o rootDir workspaceIndicators with
  | Except.error _ => initialDetection
  | Except.ok wsInfo =>
    let det1 :=
      match wsInfo with
      | some (ty, cfg) =>
        { initialDetection with
            isWorkspace := true
          , workspaceType := some ty
          , workspaceConfig := cfg
          , struct := StructureKind.workspace }
      | none => initialDetection
    let projects := scanForProjects o rootDir
    let det2 := { det1 with projects := projects }
    let det3 :=
      if !det2.isWorkspace ∧ projects.length > 1 then
        { det2 with struct := StructureKind.multiProject
                  , workspaceType := some (("Implicit Multi-Project").data) }
      else det2
    if det3.isWorkspace then
      match analyzeWorkspaceStructure o rootDir det3 with
      | Except.ok d => d
      | Except.error d => d
    else det3

/-! ## Project Scorer lemmas -/
/-- The indicator entries whose probe answered `ok true` (the entries the
source's loop records in `indicators`), in registry order. -/
def matchedTrue (o : FSOracle) (d : List Char)
    (l : List (List Char × List Char × Nat)) : List (List Char × List Char × Nat) :=
  l.filter (fun x =>
    match o.probe d x.1 with
    | Except.ok true => true
    | _ => false)

/-- The `totalWeight` accumulated over a list of indicator entries. -/
def sumWeights (l : List (List Char × List Char × Nat)) : Nat :=
  (l.map (fun x => x.2.2)).sum

/-- The `maxWeight`/`primaryType` tracking of the source's loop, as a fold:
a strictly greater weight replaces the pair, ties keep the earlier entry. -/
def maxTypeFold : List (List Char × List Char × Nat) → Nat × List Char → Nat × List Char
  | [], s => s
  | (_, ty, w) :: rest, (mx, pty) =>
    maxTypeFold rest (if w > mx then (w, ty) else (mx, pty))

/-! ## Concrete oracles for counterexamples and witnesses -/
/-- An oracle on which every probe answers "does not exist" and every other
call succeeds trivially. -/
def emptyOracle : FSOracle :=
  { probe := fun _ _ => Except.ok false
  , stat := fun _ => Except.ok (0, 0)
  , countFiles := fun _ => 0
  , extractName := fun _ _ => none
  , readdirEntries := fun _ => Except.ok []
  , readdirNames := fun _ => Except.ok []
  , statIsDir := fun _ => Except.ok true
  , pathExists := fun _ => Except.ok false
  , readConfigFor := fun _ _ => none
  , pnpmPatterns := fun _ => Except.ok none
  , yarnPatterns := fun _ => Except.ok none }

/-- Oracle for C3: probing package.json under /p throws; tsconfig.json
exists; everything else does not exist. -/
def oC3 : FSOracle :=
  { emptyOracle with
    probe := fun d p =>
      if d = ("/p").data ∧ p = ("package.json").data then Except.error ()
      else Except.ok (decide (d = ("/p").data ∧ p = ("tsconfig.json").data)) }

/-- The C3 oracle with the failing probe replaced by a plain "does not
exist" answer — the behaviour the claim says the failure is equivalent to. -/
def oC3ok : FSOracle :=
  { emptyOracle with
    probe := fun d p => Except.ok (decide (d = ("/p").data ∧ p = ("tsconfig.json").data)) }

/-- Oracle for C6: package.json (weight 10) and next.config.js (weight 15)
both exist under /n. -/
def oC6 : FSOracle :=
  { emptyOracle with
    probe := fun d p => Except.ok
      (decide (d = ("/n").data ∧ (p = ("package.json").data ∨ p = ("next.config.js").data))) }

/-- The candidate `oC6` produces: the higher-weight framework indicator
determines the type. -/
def cC6 : Candidate :=
  ⟨("n").data, ("n").data, ("/n").data, ("nextjs").data, 100,
   [("package.json").data, ("next.config.js").data], 0, 0, 0, false⟩

/-- Oracle for C8 (smaller matched set): only Dockerfile exists under /m. -/
def oC8a : FSOracle :=
  { emptyOracle with
    probe := fun d p => Except.ok (decide (d = ("/m").data ∧ p = ("Dockerfile").data)) }

/-- Oracle for C8 (larger matched set): Dockerfile and package.json exist
under /m. -/
def oC8b : FSOracle :=
  { emptyOracle with
    probe := fun d p => Except.ok
      (decide (d = ("/m").data ∧ (p = ("Dockerfile").data ∨ p = ("package.json").data))) }

/-- Candidate produced by `oC8a`. -/
def cC8a : Candidate :=
  ⟨("m").data, ("m").data, ("/m").data, ("docker").data, 25,
   [("Dockerfile").data], 0, 0, 0, false⟩

/-- Candidate produced by `oC8b`. -/
def cC8b : Candidate :=
  ⟨("m").data, ("m").data, ("/m").data, ("nodejs").data, 75,
   [("package.json").data, ("Dockerfile").data], 0, 0, 0, false⟩

/-- Oracle for C10: only Dockerfile (the smallest weight, 5) exists
under /q — the boundary case of the confidence lower bound. -/
def oC10 : FSOracle :=
  { emptyOracle with
    probe := fun d p => Except.ok (decide (d = ("/q").data ∧ p = ("Dockerfile").data)) }

/-- Candidate produced by `oC10`: confidence exactly 25. -/
def cC10 : Candidate :=
  ⟨("q").data, ("q").data, ("/q").data, ("docker").data, 25,
   [("Dockerfile").data], 0, 0, 0, false⟩

/-! ## Sub-analyzer preservation lemmas -/
/-- The detection object an `Except Detection Detection` carries: the source
mutates `detection` in place, so both normal return and a thrown exception
leave the caller holding the same (partially mutated) object. -/
def exPayload : Except Detection Detection → Detection
  | Except.ok d => d
  | Except.error d => d

/-- Relation stating that `d'` is `det` after sub-analyzer mutations: `isWorkspace` and `structure`
untouched, `projects` only extended at the end. -/
def DetExtends (det d' : Detection) : Prop :=
  d'.isWorkspace = det.isWorkspace ∧ d'.struct = det.struct ∧
  ∃ extra, d'.projects = det.projects ++ extra

/-- Oracle for C1 and C7: a Lerna workspace at /r whose root matches only
Dockerfile (confidence 25) and whose declared packages directory contains
one package with package.json (confidence 50). -/
def oC1 : FSOracle :=
  { emptyOracle with
    probe := fun d p => Except.ok
      (decide ((d = ("/r").data ∧ (p = ("lerna.json").data ∨ p = ("Dockerfile").data)) ∨
               (d = ("/r/packages/app").data ∧ p = ("package.json").data)))
  , readdirEntries := fun d =>
      Except.ok (if d = ("/r").data then [⟨("packages").data, true⟩] else [])
  , readdirNames := fun d =>
      Except.ok (if d = ("/r/packages").data then [("app").data] else [])
  , pathExists := fun d => Except.ok (decide (d = ("/r/packages").data))
  , readConfigFor := fun d p =>
      if d = ("/r").data ∧ p = ("lerna.json").data then
        some ⟨some [("packages").data], none⟩
      else none }

/-- Oracle for C2: a VS Code workspace at /r whose descriptor lists the
in-root folder "sub", which the plain scan also discovers. -/
def oC2 : FSOracle :=
  { emptyOracle with
    probe := fun d p => Except.ok
      (decide ((d = ("/r").data ∧ p = ("*.code-workspace").data) ∨
               (d = ("/r/sub").data ∧ p = ("package.json").data)))
  , readdirEntries := fun d =>
      Except.ok (if d = ("/r").data then [⟨("sub").data, true⟩] else [])
  , pathExists := fun d => Except.ok (decide (d = ("/r/sub").data))
  , readConfigFor := fun d p =>
      if d = ("/r").data ∧ p = ("*.code-workspace").data then
        some ⟨none, some [⟨("sub").data, none⟩]⟩
      else none }

/-- The root candidate the scan finds under `oC1` (Dockerfile only). -/
def cRootC1 : Candidate :=
  ⟨(".").data, (".").data, ("/r").data, ("docker").data, 25,
   [("Dockerfile").data], 0, 0, 0, false⟩

/-- The package candidate the Lerna analyzer adds under `oC1`. -/
def cAppC1 : Candidate :=
  ⟨("packages/app").data, ("packages/app").data, ("/r/packages/app").data,
   ("nodejs").data, 50, [("package.json").data], 0, 0, 0, false⟩

/-- Input detection for the C2 witness. -/
def detC2in : Detection :=
  { isWorkspace := true
  , workspaceType := some (("Lerna Monorepo").data)
  , workspaceConfig := some ⟨some [("packages").data], none⟩
  , projects := [cRootC1]
  , struct := StructureKind.workspace
  , packagePatterns := none
  , externalProjects := none }

/-- Output detection for the C2 witness. -/
def detC2out : Detection :=
  { detC2in with
      packagePatterns := some [("packages").data]
    , projects := [cRootC1, cAppC1] }

instance {ε α : Type} [DecidableEq ε] [DecidableEq α] : DecidableEq (Except ε α) :=
  fun a b =>
    match a, b with
    | Except.ok x, Except.ok y =>
      if h : x = y then isTrue (by rw [h])
      else isFalse (by intro he; cases he; exact h rfl)
    | Except.error x, Except.error y =>
      if h : x = y then isTrue (by rw [h])
      else isFalse (by intro he; cases he; exact h rfl)
    | Except.ok _, Except.error _ => isFalse (by intro he; cases he)
    | Except.error _, Except.ok _ => isFalse (by intro he; cases he)

/-- Oracle for C5: a VS Code workspace at /r referencing the external
directory /ext under display name "MyDisplay"; /ext holds a package.json
whose declared package name is "pkg-real". -/
def oC5 : FSOracle :=
  { emptyOracle with
    probe := fun d p => Except.ok
      (decide ((d = ("/r").data ∧ p = ("*.code-workspace").data) ∨
               (d = ("/ext").data ∧ p = ("package.json").data)))
  , extractName := fun d _ => if d = ("/ext").data then some (("pkg-real").data) else none
  , pathExists := fun d => Except.ok (decide (d = ("/ext").data))
  , readConfigFor := fun d p =>
      if d = ("/r").data ∧ p = ("*.code-workspace").data then
        some ⟨none, some [⟨("/ext").data, some (("MyDisplay").data)⟩]⟩
      else none }

/-- The external candidate produced under `oC5`. -/
def cExtC5 : Candidate :=
  ⟨("pkg-real").data, ("MyDisplay").data, ("/ext").data, ("nodejs").data, 50,
   [("package.json").data], 0, 0, 0, true⟩

/-- Input detection for the C5 witness. -/
def detC5in : Detection :=
  { isWorkspace := true
  , workspaceType := some (("VS Code Workspace").data)
  , workspaceConfig := some ⟨none, some [⟨("/ext").data, some (("MyDisplay").data)⟩]⟩
  , projects := []
  , struct := StructureKind.workspace
  , packagePatterns := none
  , externalProjects := none }

/-- Output detection for the C5 witness. -/
def detC5out : Detection :=
  { detC5in with projects := [cExtC5], externalProjects := some [cExtC5] }

/-- C9: `parseRepositoryUrl` is a total function (it never throws), and its
result is all-or-nothing per branch: either every field is null (input not
recognized), or host/owner/repo are all set with org null, or — for the
Azure provider only — all four fields are set. -/
theorem parseRepositoryUrl_nullOnFailure (url : List Char) (t : ProviderTag) :
    parseRepositoryUrl url t = allNullInfo ∨
    (∃ h o r, parseRepositoryUrl url t = ⟨some h, some o, some r, none⟩) ∨
    (t = ProviderTag.azure ∧
      ∃ p r g, parseRepositoryUrl url t =
        ⟨some (("dev.azure.com").data), some p, some r, some g⟩) := by
  unfold parseRepositoryUrl
  split
  · cases hs : sshSearch url with
    | none => exact Or.inl rfl
    | some v =>
      obtain ⟨h, o, r⟩ := v
      exact Or.inr (Or.inl ⟨h, o, r, rfl⟩)
  · split
    · split
      · next ht =>
        cases hs : azureSearch url with
        | none => exact Or.inl rfl
        | some v =>
          obtain ⟨g, p, r⟩ := v
          exact Or.inr (Or.inr ⟨ht, p, r, g, rfl⟩)
      · cases hs : httpsSearch url with
        | none => exact Or.inl rfl
        | some v =>
          obtain ⟨h, o, r⟩ := v
          exact Or.inr (Or.inl ⟨h, o, r, rfl⟩)
    · exact Or.inl rfl

theorem scoreLoop_ok (o : FSOracle) (d : List Char) :
    ∀ (l : List (List Char × List Char × Nat)) (inds0 : List (List Char))
      (tot0 mx0 : Nat) (pty0 : List Char)
      (inds : List (List Char)) (tot mx : Nat) (pty : List Char),
      scoreLoop o d l (inds0, tot0, mx0, pty0) = Except.ok (inds, tot, mx, pty) →
      inds = inds0 ++ (matchedTrue o d l).map (fun x => x.1) ∧
      tot = tot0 + sumWeights (matchedTrue o d l) ∧
      (mx, pty) = maxTypeFold (matchedTrue o d l) (mx0, pty0) := by
  intro l
  induction l with
  | nil =>
    intro inds0 tot0 mx0 pty0 inds tot mx pty h
    cases h
    simp [matchedTrue, sumWeights, maxTypeFold]
  | cons x rest ih =>
    intro inds0 tot0 mx0 pty0 inds tot mx pty h
    obtain ⟨pat, ty, w⟩ := x
    simp only [scoreLoop] at h
    cases hp : o.probe d pat with
    | error e => rw [hp] at h; cases h
    | ok b =>
      rw [hp] at h
      cases b with
      | true =>
        obtain ⟨hi, ht, hmp⟩ := ih _ _ _ _ _ _ _ _ h
        have hm : matchedTrue o d ((pat, ty, w) :: rest) =
            (pat, ty, w) :: matchedTrue o d rest := by
          simp [matchedTrue, hp]
        refine ⟨?_, ?_, ?_⟩
        · rw [hm]; simpa [List.append_assoc] using hi
        · rw [hm]
          simp only [sumWeights, List.map_cons, List.sum_cons] at ht ⊢
          omega
        · rw [hm]
          simp only [maxTypeFold]
          rw [hmp]
          congr 1
          by_cases hw : w > mx0 <;> simp [hw]
      | false =>
        obtain ⟨hi, ht, hmp⟩ := ih _ _ _ _ _ _ _ _ h
        have hm : matchedTrue o d ((pat, ty, w) :: rest) = matchedTrue o d rest := by
          simp [matchedTrue, hp]
        exact ⟨hm ▸ hi, hm ▸ ht, hm ▸ hmp⟩

theorem analyze_some (o : FSOracle) (d n : List Char) (c : Candidate)
    (h : analyzeProjectDirectory o d n = some c) :
    sumWeights (matchedTrue o d projectIndicators) ≠ 0 ∧
    c.indicators = (matchedTrue o d projectIndicators).map (fun x => x.1) ∧
    c.confidence = min 100 (sumWeights (matchedTrue o d projectIndicators) * 100 / 20) ∧
    c.type = (maxTypeFold (matchedTrue o d projectIndicators) (0, (("unknown").data))).2 := by
  unfold analyzeProjectDirectory at h
  cases hs : scoreLoop o d projectIndicators ([], 0, 0, (("unknown").data)) with
  | error e => rw [hs] at h; cases h
  | ok st =>
    obtain ⟨inds, tot, mx, pty⟩ := st
    rw [hs] at h
    dsimp only at h
    obtain ⟨hi, ht, hmp⟩ := scoreLoop_ok o d projectIndicators [] 0 0 _ inds tot mx pty hs
    by_cases h0 : tot = 0
    · rw [if_pos h0] at h; cases h
    · rw [if_neg h0] at h
      cases hst : o.stat d with
      | error e => rw [hst] at h; cases h
      | ok p =>
        obtain ⟨sz, mt⟩ := p
        rw [hst] at h
        have hc := (Option.some.inj h).symm
        subst hc
        simp only [List.nil_append] at hi
        refine ⟨?_, hi, ?_, ?_⟩
        · intro hz; exact h0 (by omega)
        · simp [ht]
        · have : pty = (maxTypeFold (matchedTrue o d projectIndicators)
              (0, (("unknown").data))).2 := by
            rw [← hmp]
          simp [this]

theorem maxTypeFold_spec :
    ∀ (l : List (List Char × List Char × Nat)) (mx0 : Nat) (pty0 : List Char),
      (maxTypeFold l (mx0, pty0) = (mx0, pty0) ∧ ∀ x ∈ l, x.2.2 ≤ mx0) ∨
      (∃ a x b, l = a ++ x :: b ∧ maxTypeFold l (mx0, pty0) = (x.2.2, x.2.1) ∧
        mx0 < x.2.2 ∧ (∀ y ∈ a, y.2.2 < x.2.2) ∧ (∀ y ∈ b, y.2.2 ≤ x.2.2)) := by
  intro l
  induction l with
  | nil => intro mx0 pty0; exact Or.inl ⟨rfl, by simp⟩
  | cons x rest ih =>
    intro mx0 pty0
    obtain ⟨pat, ty, w⟩ := x
    by_cases hw : w > mx0
    · have hstep : maxTypeFold ((pat, ty, w) :: rest) (mx0, pty0) =
          maxTypeFold rest (w, ty) := by simp [maxTypeFold, hw]
      rcases ih w ty with ⟨he, hall⟩ | ⟨a, z, b, hsplit, hfold, hlt, hpre, hpost⟩
      · refine Or.inr ⟨[], (pat, ty, w), rest, by simp, ?_, hw, by simp, hall⟩
        rw [hstep, he]
      · refine Or.inr ⟨(pat, ty, w) :: a, z, b, by simp [hsplit], ?_,
          lt_trans hw hlt, ?_, hpost⟩
        · rw [hstep, hfold]
        · intro y hy
          rcases List.mem_cons.mp hy with hy | hy
          · subst hy; exact hlt
          · exact hpre y hy
    · have hstep : maxTypeFold ((pat, ty, w) :: rest) (mx0, pty0) =
          maxTypeFold rest (mx0, pty0) := by simp [maxTypeFold, hw]
      rcases ih mx0 pty0 with ⟨he, hall⟩ | ⟨a, z, b, hsplit, hfold, hlt, hpre, hpost⟩
      · refine Or.inl ⟨by rw [hstep, he], ?_⟩
        intro y hy
        rcases List.mem_cons.mp hy with hy | hy
        · subst hy; exact Nat.le_of_not_lt hw
        · exact hall y hy
      · refine Or.inr ⟨(pat, ty, w) :: a, z, b, by simp [hsplit], by rw [hstep, hfold],
          hlt, ?_, hpost⟩
        intro y hy
        rcases List.mem_cons.mp hy with hy | hy
        · subst hy; exact lt_of_le_of_lt (Nat.le_of_not_lt hw) hlt
        · exact hpre y hy

theorem matchedTrue_sublist (o : FSOracle) (d : List Char)
    (l : List (List Char × List Char × Nat)) :
    List.Sublist (matchedTrue o d l) l :=
  List.filter_sublist l

theorem registry_weights_ge_five :
    ∀ x ∈ projectIndicators, 5 ≤ x.2.2 := by decide

/-- C10: every candidate the Project Scorer returns has at least one matched
indicator, and its confidence lies in [25, 100]: the smallest registered
weight is 5, and min(100, totalWeight/20·100) is at least 25 for
totalWeight ≥ 5. -/
theorem scorer_confidence_bounds (o : FSOracle) (d n : List Char) (c : Candidate)
    (h : analyzeProjectDirectory o d n = some c) :
    c.indicators ≠ [] ∧ 25 ≤ c.confidence ∧ c.confidence ≤ 100 := by
  obtain ⟨hsum, hi, hconf, _⟩ := analyze_some o d n c h
  have hm : matchedTrue o d projectIndicators ≠ [] := by
    intro hz
    rw [hz] at hsum
    exact hsum rfl
  refine ⟨?_, ?_, ?_⟩
  · rw [hi]
    intro hz
    exact hm (List.map_eq_nil_iff.mp hz)
  · have h5 : 5 ≤ sumWeights (matchedTrue o d projectIndicators) := by
      cases hmt : matchedTrue o d projectIndicators with
      | nil => exact absurd hmt hm
      | cons m rest =>
        have hmem : m ∈ projectIndicators :=
          (matchedTrue_sublist o d projectIndicators).subset
            (hmt ▸ List.mem_cons_self m rest)
        have hw := registry_weights_ge_five m hmem
        simp only [sumWeights, List.map_cons, List.sum_cons]
        omega
    rw [hconf]
    have hdiv : 25 ≤ sumWeights (matchedTrue o d projectIndicators) * 100 / 20 := by
      rw [Nat.le_div_iff_mul_le (by norm_num)]
      omega
    exact le_min (by norm_num) hdiv
  · rw [hconf]
    exact min_le_left _ _

/-- C6: the `primaryType` of a returned candidate is the type of the matched
indicator holding the single largest weight; on ties the first indicator in
registry iteration order wins — every matched indicator before the chosen one
has strictly smaller weight and every one after it has weight ≤ the chosen
weight. -/
theorem primaryType_first_max (o : FSOracle) (d n : List Char) (c : Candidate)
    (h : analyzeProjectDirectory o d n = some c) :
    ∃ a x b, matchedTrue o d projectIndicators = a ++ x :: b ∧ c.type = x.2.1 ∧
      (∀ y ∈ a, y.2.2 < x.2.2) ∧ (∀ y ∈ b, y.2.2 ≤ x.2.2) := by
  obtain ⟨hsum, _, _, hty⟩ := analyze_some o d n c h
  rcases maxTypeFold_spec (matchedTrue o d projectIndicators) 0 (("unknown").data) with
    ⟨he, hall⟩ | ⟨a, x, b, hsplit, hfold, _, hpre, hpost⟩
  · exfalso
    cases hmt : matchedTrue o d projectIndicators with
    | nil =>
      rw [hmt] at hsum
      exact hsum rfl
    | cons m rest =>
      have hmem : m ∈ projectIndicators :=
        (matchedTrue_sublist o d projectIndicators).subset
          (hmt ▸ List.mem_cons_self m rest)
      have h5 := registry_weights_ge_five m hmem
      have h0 := hall m (hmt ▸ List.mem_cons_self m rest)
      omega
  · exact ⟨a, x, b, hsplit, by rw [hty, hfold], hpre, hpost⟩

theorem sublist_sumWeights_le {l1 l2 : List (List Char × List Char × Nat)}
    (h : List.Sublist l1 l2) : sumWeights l1 ≤ sumWeights l2 := by
  induction h with
  | slnil => exact le_rfl
  | cons a h ih =>
    simp only [sumWeights, List.map_cons, List.sum_cons] at ih ⊢
    omega
  | cons₂ a h ih =>
    simp only [sumWeights, List.map_cons, List.sum_cons] at ih ⊢
    omega

theorem matchedTrue_mono (o1 o2 : FSOracle) (d : List Char)
    (l : List (List Char × List Char × Nat))
    (hsub : ∀ p, o1.probe d p = Except.ok true → o2.probe d p = Except.ok true) :
    List.Sublist (matchedTrue o1 d l) (matchedTrue o2 d l) := by
  induction l with
  | nil => simp [matchedTrue]
  | cons x xs ih =>
    simp only [matchedTrue, List.filter_cons] at ih ⊢
    by_cases h1 : (match o1.probe d x.1 with
      | Except.ok true => true
      | _ => false) = true
    · have h2 : (match o2.probe d x.1 with
        | Except.ok true => true
        | _ => false) = true := by
        cases hp : o1.probe d x.1 with
        | error e => rw [hp] at h1; cases h1
        | ok b =>
          cases b with
          | true => rw [hsub x.1 hp]
          | false => rw [hp] at h1; cases h1
      rw [if_pos h1, if_pos h2]
      exact List.Sublist.cons₂ x ih
    · rw [if_neg h1]
      by_cases h2 : (match o2.probe d x.1 with
        | Except.ok true => true
        | _ => false) = true
      · rw [if_pos h2]
        exact List.Sublist.cons x ih
      · rw [if_neg h2]
        exact ih

/-- C8: confidence is monotone in the matched indicator set: if every
indicator probe answering "exists" under oracle `o1` also answers "exists"
under `o2` (S1 ⊆ S2), then the confidence scored under `o1` is at most the
confidence scored under `o2`. -/
theorem confidence_monotone (o1 o2 : FSOracle) (d n1 n2 : List Char) (c1 c2 : Candidate)
    (h1 : analyzeProjectDirectory o1 d n1 = some c1)
    (h2 : analyzeProjectDirectory o2 d n2 = some c2)
    (hsub : ∀ p, o1.probe d p = Except.ok true → o2.probe d p = Except.ok true) :
    c1.confidence ≤ c2.confidence := by
  obtain ⟨_, _, hc1, _⟩ := analyze_some o1 d n1 c1 h1
  obtain ⟨_, _, hc2, _⟩ := analyze_some o2 d n2 c2 h2
  rw [hc1, hc2]
  have hs := sublist_sumWeights_le (matchedTrue_mono o1 o2 d projectIndicators hsub)
  exact min_le_min le_rfl (Nat.div_le_div_right (Nat.mul_le_mul_right _ hs))

theorem scoreLoop_error_of_probe_error (o : FSOracle) (d : List Char) :
    ∀ (pre : List (List Char × List Char × Nat)) (pat ty : List Char) (w : Nat)
      (post : List (List Char × List Char × Nat))
      (st : List (List Char) × Nat × Nat × List Char),
      (∀ x ∈ pre, o.probe d x.1 ≠ Except.error ()) →
      o.probe d pat = Except.error () →
      scoreLoop o d (pre ++ (pat, ty, w) :: post) st = Except.error () := by
  intro pre
  induction pre with
  | nil =>
    intro pat ty w post st hpre herr
    obtain ⟨inds, tot, mx, pty⟩ := st
    simp only [List.nil_append, scoreLoop, herr]
  | cons x pre' ih =>
    intro pat ty w post st hpre herr
    obtain ⟨xp, xty, xw⟩ := x
    obtain ⟨inds, tot, mx, pty⟩ := st
    have hx := hpre (xp, xty, xw) (List.mem_cons_self _ _)
    simp only [List.cons_append, scoreLoop]
    cases hp : o.probe d xp with
    | error e =>
      cases e
      exact absurd hp hx
    | ok b =>
      cases b with
      | true => exact ih pat ty w post _ (fun y hy => hpre y (List.mem_cons_of_mem _ hy)) herr
      | false => exact ih pat ty w post _ (fun y hy => hpre y (List.mem_cons_of_mem _ hy)) herr

/-- C3 (amended): an I/O failure raised while probing a single indicator
pattern is caught only by the try/catch around the whole directory analysis:
as soon as one probe throws (all earlier probes having returned normally),
`analyzeProjectDirectory` returns null for the whole directory — the
remaining indicators are not evaluated and no candidate is produced, even
when other indicators match. -/
theorem probeFailure_aborts_scoring (o : FSOracle) (d n : List Char)
    (pre : List (List Char × List Char × Nat)) (pat ty : List Char) (w : Nat)
    (post : List (List Char × List Char × Nat))
    (hsplit : projectIndicators = pre ++ (pat, ty, w) :: post)
    (hpre : ∀ x ∈ pre, o.probe d x.1 ≠ Except.error ())
    (herr : o.probe d pat = Except.error ()) :
    analyzeProjectDirectory o d n = none := by
  unfold analyzeProjectDirectory
  rw [hsplit, scoreLoop_error_of_probe_error o d pre pat ty w post _ hpre herr]

/-- C3: counterexample.  Under `oC3` the package.json probe throws while
tsconfig.json matches: the source scores the whole directory as null, whereas
treating the failure as "pattern did not match" (oracle `oC3ok`, identical
except for that one answer) yields a candidate scored from tsconfig.json.
The probe failure is therefore not handled as a non-match of that single
pattern. -/
theorem probeFailure_counterexample :
    analyzeProjectDirectory oC3 (("/p").data) (("p").data) = none ∧
    analyzeProjectDirectory oC3ok (("/p").data) (("p").data) =
      some ⟨("p").data, ("p").data, ("/p").data, ("typescript").data, 40,
            [("tsconfig.json").data], 0, 0, 0, false⟩ := by
  constructor
  · decide
  · decide

/-- C3: witness for the amended theorem, applied at the concrete oracle
`oC3` with the failing pattern package.json (the first registry entry). -/
theorem probeFailure_aborts_scoring_witness :
    oC3.probe (("/p").data) (("package.json").data) = Except.error () ∧
    analyzeProjectDirectory oC3 (("/p").data) (("p").data) = none :=
  ⟨rfl, probeFailure_aborts_scoring oC3 (("/p").data) (("p").data) []
    (("package.json").data) (("nodejs").data) 10 projectIndicators.tail
    rfl (by simp) rfl⟩

/-- C6: witness — a directory matching the generic nodejs manifest
(weight 10) and the framework config (weight 15) is typed with the
framework-specific tag. -/
theorem primaryType_first_max_witness :
    analyzeProjectDirectory oC6 (("/n").data) (("n").data) = some cC6 ∧
    cC6.type = ("nextjs").data ∧
    (∃ a x b, matchedTrue oC6 (("/n").data) projectIndicators = a ++ x :: b ∧
      cC6.type = x.2.1 ∧ (∀ y ∈ a, y.2.2 < x.2.2) ∧ (∀ y ∈ b, y.2.2 ≤ x.2.2)) :=
  ⟨by decide, by decide,
   primaryType_first_max oC6 (("/n").data) (("n").data) cC6 (by decide)⟩

/-- C8: witness — the monotonicity theorem applied to the concrete oracle
pair whose matched sets are {Dockerfile} ⊆ {Dockerfile, package.json}. -/
theorem confidence_monotone_witness :
    analyzeProjectDirectory oC8a (("/m").data) (("m").data) = some cC8a ∧
    analyzeProjectDirectory oC8b (("/m").data) (("m").data) = some cC8b ∧
    cC8a.confidence ≤ cC8b.confidence :=
  ⟨by decide, by decide,
   confidence_monotone oC8a oC8b (("/m").data) (("m").data) (("m").data) cC8a cC8b
     (by decide) (by decide)
     (by
       intro p hp
       have h' := Except.ok.inj hp
       have hA := of_decide_eq_true h'
       exact congrArg Except.ok (decide_eq_true ⟨hA.1, Or.inl hA.2⟩))⟩

/-- C10: witness — the bounds theorem applied at the weakest indicator. -/
theorem scorer_confidence_bounds_witness :
    analyzeProjectDirectory oC10 (("/q").data) (("q").data) = some cC10 ∧
    (cC10.indicators ≠ [] ∧ 25 ≤ cC10.confidence ∧ cC10.confidence ≤ 100) :=
  ⟨by decide, scorer_confidence_bounds oC10 (("/q").data) (("q").data) cC10 (by decide)⟩

/-! ## Sorting lemmas (scanForProjects) -/
theorem mem_insertDesc (c y : Candidate) (l : List Candidate) :
    y ∈ insertDesc c l ↔ y = c ∨ y ∈ l := by
  induction l with
  | nil => simp [insertDesc]
  | cons x xs ih =>
    simp only [insertDesc]
    by_cases hc : c.confidence ≤ x.confidence
    · rw [if_pos hc]
      simp only [List.mem_cons, ih]
      tauto
    · rw [if_neg hc]
      simp only [List.mem_cons]

theorem insertDesc_pairwise (c : Candidate) (l : List Candidate)
    (h : List.Pairwise (fun a b : Candidate => b.confidence ≤ a.confidence) l) :
    List.Pairwise (fun a b : Candidate => b.confidence ≤ a.confidence) (insertDesc c l) := by
  induction l with
  | nil => simp [insertDesc]
  | cons x xs ih =>
    rcases List.pairwise_cons.mp h with ⟨hx, hxs⟩
    simp only [insertDesc]
    by_cases hc : c.confidence ≤ x.confidence
    · rw [if_pos hc]
      refine List.pairwise_cons.mpr ⟨?_, ih hxs⟩
      intro y hy
      rcases (mem_insertDesc c y xs).mp hy with rfl | hy
      · exact hc
      · exact hx y hy
    · rw [if_neg hc]
      refine List.pairwise_cons.mpr ⟨?_, h⟩
      intro y hy
      rcases List.mem_cons.mp hy with rfl | hy
      · exact Nat.le_of_not_le hc
      · exact le_trans (hx y hy) (Nat.le_of_not_le hc)

theorem sortAux_pairwise :
    ∀ (l acc : List Candidate),
      List.Pairwise (fun a b : Candidate => b.confidence ≤ a.confidence) acc →
      List.Pairwise (fun a b : Candidate => b.confidence ≤ a.confidence)
        (List.foldl (fun acc c => insertDesc c acc) acc l) := by
  intro l
  induction l with
  | nil => intro acc h; exact h
  | cons x xs ih =>
    intro acc h
    exact ih (insertDesc x acc) (insertDesc_pairwise x acc h)

theorem sortByConfidence_pairwise (l : List Candidate) :
    List.Pairwise (fun a b : Candidate => b.confidence ≤ a.confidence)
      (sortByConfidence l) :=
  sortAux_pairwise l [] (by simp)

theorem filter_insertDesc (q : Nat) (c : Candidate) (l : List Candidate)
    (h : List.Pairwise (fun a b : Candidate => b.confidence ≤ a.confidence) l) :
    (insertDesc c l).filter (fun x => x.confidence == q) =
      l.filter (fun x => x.confidence == q) ++
        (if c.confidence == q then [c] else []) := by
  induction l with
  | nil =>
    simp only [insertDesc, List.filter_cons, List.filter_nil, List.nil_append]
  | cons x xs ih =>
    rcases List.pairwise_cons.mp h with ⟨hx, hxs⟩
    simp only [insertDesc]
    by_cases hc : c.confidence ≤ x.confidence
    · rw [if_pos hc]
      by_cases hxq : (x.confidence == q) = true
      · rw [show List.filter (fun y => y.confidence == q) (x :: insertDesc c xs) =
            x :: List.filter (fun y => y.confidence == q) (insertDesc c xs) from by
          simp [List.filter_cons, hxq]]
        rw [show List.filter (fun y => y.confidence == q) (x :: xs) =
            x :: List.filter (fun y => y.confidence == q) xs from by
          simp [List.filter_cons, hxq]]
        rw [ih hxs]
        simp
      · rw [show List.filter (fun y => y.confidence == q) (x :: insertDesc c xs) =
            List.filter (fun y => y.confidence == q) (insertDesc c xs) from by
          simp [List.filter_cons, hxq]]
        rw [show List.filter (fun y => y.confidence == q) (x :: xs) =
            List.filter (fun y => y.confidence == q) xs from by
          simp [List.filter_cons, hxq]]
        exact ih hxs
    · rw [if_neg hc]
      by_cases hcq : (c.confidence == q) = true
      · have hfe : List.filter (fun y : Candidate => y.confidence == q) (x :: xs) = [] := by
          rw [List.filter_eq_nil_iff]
          intro y hy hb
          have hyq : y.confidence = q := eq_of_beq hb
          have hcqe : c.confidence = q := eq_of_beq hcq
          have hyx : y.confidence ≤ x.confidence := by
            rcases List.mem_cons.mp hy with rfl | hy
            · exact le_rfl
            · exact hx y hy
          have hlt : x.confidence < c.confidence := Nat.lt_of_not_le hc
          omega
        rw [show List.filter (fun y => y.confidence == q) (c :: x :: xs) =
            c :: List.filter (fun y => y.confidence == q) (x :: xs) from by
          simp [List.filter_cons, hcq]]
        rw [hfe, if_pos hcq]
        rfl
      · rw [show List.filter (fun y => y.confidence == q) (c :: x :: xs) =
            List.filter (fun y => y.confidence == q) (x :: xs) from by
          simp [List.filter_cons, hcq]]
        rw [if_neg hcq]
        simp

theorem sortAux_filter (q : Nat) :
    ∀ (l acc : List Candidate),
      List.Pairwise (fun a b : Candidate => b.confidence ≤ a.confidence) acc →
      (List.foldl (fun acc c => insertDesc c acc) acc l).filter
          (fun x => x.confidence == q) =
        acc.filter (fun x => x.confidence == q) ++
          l.filter (fun x => x.confidence == q) := by
  intro l
  induction l with
  | nil => intro acc h; simp
  | cons x xs ih =>
    intro acc hacc
    simp only [List.foldl_cons]
    rw [ih _ (insertDesc_pairwise x acc hacc), filter_insertDesc q x acc hacc,
      List.filter_cons]
    by_cases hxq : (x.confidence == q) = true
    · rw [if_pos hxq, if_pos hxq]
      simp
    · rw [if_neg hxq, if_neg hxq]
      simp

/-- Stability of the sort: for every confidence value, the candidates holding
it appear in the sorted list in the order they appear in the input (the
comparator `b.confidence - a.confidence` under a stable Array.prototype.sort
keeps ties in discovery order). -/
theorem sortByConfidence_stable (l : List Candidate) (q : Nat) :
    (sortByConfidence l).filter (fun x => x.confidence == q) =
      l.filter (fun x => x.confidence == q) := by
  have h := sortAux_filter q l [] (by simp)
  simpa [sortByConfidence] using h

theorem detExtends_refl (det : Detection) : DetExtends det det :=
  ⟨rfl, rfl, [], by simp⟩

theorem detExtends_trans {a b c : Detection}
    (h1 : DetExtends a b) (h2 : DetExtends b c) : DetExtends a c := by
  obtain ⟨e1, e2, x1, hx1⟩ := h1
  obtain ⟨f1, f2, x2, hx2⟩ := h2
  exact ⟨f1.trans e1, f2.trans e2, x1 ++ x2, by rw [hx2, hx1, List.append_assoc]⟩

theorem lernaSubdirs_extends (o : FSOracle) (root cp : List Char) :
    ∀ (subdirs : List (List Char)) (det : Detection),
      DetExtends det (exPayload (lernaSubdirs o root cp subdirs det)) := by
  intro subdirs
  induction subdirs with
  | nil => intro det; exact detExtends_refl det
  | cons sd rest ih =>
    intro det
    simp only [lernaSubdirs]
    cases hsd : o.statIsDir (pjoin (pjoin root cp) sd) with
    | error e => exact detExtends_refl det
    | ok isDir =>
      dsimp only
      refine detExtends_trans ?_ (ih _)
      split
      · split
        · split
          · exact detExtends_refl _
          · exact ⟨rfl, rfl, [_], rfl⟩
        · exact detExtends_refl _
      · exact detExtends_refl _

theorem lernaPats_extends (o : FSOracle) (root : List Char) :
    ∀ (pats : List (List Char)) (det : Detection),
      DetExtends det (exPayload (lernaPats o root pats det)) := by
  intro pats
  induction pats with
  | nil => intro det; exact detExtends_refl det
  | cons pat rest ih =>
    intro det
    simp only [lernaPats]
    cases hpe : o.pathExists (pjoin root (replaceFirst (("/*").data) [] pat)) with
    | error e => exact detExtends_refl det
    | ok b =>
      cases b with
      | false => exact ih det
      | true =>
        dsimp only
        cases hrd : o.readdirNames (pjoin root (replaceFirst (("/*").data) [] pat)) with
        | error e => exact detExtends_refl det
        | ok subdirs =>
          dsimp only
          cases hls : lernaSubdirs o root (replaceFirst (("/*").data) [] pat) subdirs det with
          | error d =>
            have := lernaSubdirs_extends o root (replaceFirst (("/*").data) [] pat) subdirs det
            rw [hls] at this
            exact this
          | ok det' =>
            have h1 := lernaSubdirs_extends o root (replaceFirst (("/*").data) [] pat) subdirs det
            rw [hls] at h1
            exact detExtends_trans h1 (ih det')

theorem analyzeLernaWorkspace_extends (o : FSOracle) (root : List Char) (det : Detection) :
    DetExtends det (exPayload (analyzeLernaWorkspace o root det)) := by
  unfold analyzeLernaWorkspace
  cases det.workspaceConfig with
  | none => exact detExtends_refl det
  | some cfg =>
    dsimp only
    cases cfg.packages with
    | none => exact detExtends_refl det
    | some pkgs =>
      dsimp only
      refine detExtends_trans (b := { det with packagePatterns := some pkgs }) ?_ ?_
      · exact ⟨rfl, rfl, [], by simp⟩
      · exact lernaPats_extends o root pkgs _

theorem analyzeVSCodeWorkspace_extends (o : FSOracle) (root : List Char) (det : Detection) :
    DetExtends det (exPayload (analyzeVSCodeWorkspace o root det)) := by
  unfold analyzeVSCodeWorkspace
  cases det.workspaceConfig with
  | none => exact detExtends_refl det
  | some cfg =>
    dsimp only
    cases cfg.folders with
    | none => exact detExtends_refl det
    | some folders =>
      dsimp only
      cases hvf : vscodeFolders o root folders [] with
      | error acc => exact detExtends_refl det
      | ok ext =>
        dsimp only [exPayload]
        exact ⟨rfl, rfl, ext, rfl⟩

theorem analyzeWorkspaceStructure_extends (o : FSOracle) (root : List Char) (det : Detection) :
    DetExtends det (exPayload (analyzeWorkspaceStructure o root det)) := by
  unfold analyzeWorkspaceStructure
  split
  · exact analyzeLernaWorkspace_extends o root det
  · split
    · unfold analyzePnpmWorkspace
      cases o.pnpmPatterns root with
      | error e => exact detExtends_refl det
      | ok v =>
        cases v with
        | none => exact detExtends_refl det
        | some pats => exact ⟨rfl, rfl, [], by simp [exPayload]⟩
    · split
      · unfold analyzeYarnWorkspace
        cases o.yarnPatterns root with
        | error e => exact detExtends_refl det
        | ok v =>
          cases v with
          | none => exact detExtends_refl det
          | some pats => exact ⟨rfl, rfl, [], by simp [exPayload]⟩
      · split
        · exact detExtends_refl det
        · split
          · exact analyzeVSCodeWorkspace_extends o root det
          · exact detExtends_refl det

theorem detectWorkspace_shape (o : FSOracle) (root : List Char) :
    (detectWorkspace o root = initialDetection) ∨
    ((detectWorkspace o root).isWorkspace = true ∧
      (detectWorkspace o root).struct = StructureKind.workspace ∧
      ∃ extra, (detectWorkspace o root).projects = scanForProjects o root ++ extra) ∨
    ((detectWorkspace o root).isWorkspace = false ∧
      (detectWorkspace o root).projects = scanForProjects o root ∧
      (((detectWorkspace o root).struct = StructureKind.multiProject ∧
        (scanForProjects o root).length > 1) ∨
       (detectWorkspace o root).struct = StructureKind.singleProject)) := by
  unfold detectWorkspace
  cases hfi : findWorkspaceIndicators o root workspaceIndicators with
  | error e => exact Or.inl rfl
  | ok wsInfo =>
    cases wsInfo with
    | none =>
      dsimp only [initialDetection]
      split
      · next hcond =>
        split
        · next hw => exact absurd hw (by simp)
        · exact Or.inr (Or.inr ⟨rfl, rfl, Or.inl ⟨rfl, hcond.2⟩⟩)
      · split
        · next hw => exact absurd hw (by simp)
        · exact Or.inr (Or.inr ⟨rfl, rfl, Or.inr rfl⟩)
    | some pr =>
      obtain ⟨ty, cfg⟩ := pr
      dsimp only [initialDetection]
      split
      · next hcond => exact absurd hcond.1 (by simp)
      · split
        · cases has : analyzeWorkspaceStructure o root
              { isWorkspace := true, workspaceType := some ty, workspaceConfig := cfg
              , projects := scanForProjects o root, struct := StructureKind.workspace
              , packagePatterns := none, externalProjects := none } with
          | ok d =>
            have hx := analyzeWorkspaceStructure_extends o root
              { isWorkspace := true, workspaceType := some ty, workspaceConfig := cfg
              , projects := scanForProjects o root, struct := StructureKind.workspace
              , packagePatterns := none, externalProjects := none }
            rw [has] at hx
            exact Or.inr (Or.inl ⟨hx.1, hx.2.1, hx.2.2⟩)
          | error d =>
            have hx := analyzeWorkspaceStructure_extends o root
              { isWorkspace := true, workspaceType := some ty, workspaceConfig := cfg
              , projects := scanForProjects o root, struct := StructureKind.workspace
              , packagePatterns := none, externalProjects := none }
            rw [has] at hx
            exact Or.inr (Or.inl ⟨hx.1, hx.2.1, hx.2.2⟩)
        · next hw => exact absurd rfl hw

/-- C7: in every detection result, `structure = workspace` implies
`isWorkspace = true`, and `structure = multi-project` implies
`isWorkspace = false` together with more than one project — on every path,
including the error-recovery return of the surrounding try/catch. -/
theorem detect_structure_invariants (o : FSOracle) (root : List Char) :
    ((detectWorkspace o root).struct = StructureKind.workspace →
      (detectWorkspace o root).isWorkspace = true) ∧
    ((detectWorkspace o root).struct = StructureKind.multiProject →
      (detectWorkspace o root).isWorkspace = false ∧
      (detectWorkspace o root).projects.length > 1) := by
  rcases detectWorkspace_shape o root with h | ⟨hw, hs, _⟩ | ⟨hw, hp, hcase⟩
  · rw [h]
    exact ⟨fun h1 => absurd h1 (by decide), fun h1 => absurd h1 (by decide)⟩
  · exact ⟨fun _ => hw, fun hm => absurd (hs.symm.trans hm) (by decide)⟩
  · constructor
    · intro hwk
      rcases hcase with ⟨hm, _⟩ | hsg
      · exact absurd (hm.symm.trans hwk) (by decide)
      · exact absurd (hsg.symm.trans hwk) (by decide)
    · intro hm2
      rcases hcase with ⟨_, hlen⟩ | hsg
      · exact ⟨hw, by rw [hp]; exact hlen⟩
      · exact absurd (hsg.symm.trans hm2) (by decide)

/-- C1: counterexample.  Under `oC1` the final `projects` sequence is
[root (confidence 25), packages/app (confidence 50)]: the Lerna sub-analyzer
appends its candidate after the already-sorted scan results and nothing
re-sorts, so the full sequence is not sorted by confidence descending. -/
theorem detect_projects_sorted_counterexample :
    ¬ List.Pairwise (fun a b : Candidate => b.confidence ≤ a.confidence)
      ((detectWorkspace oC1 (("/r").data)).projects) := by decide

/-- C1 (amended): `projects` is the stable sort by confidence descending of
the scan-discovered candidates (root first, then subdirectories in listing
order; ties keep that order), followed by any convention-declared candidates
appended afterwards without re-sorting — only the scan-discovered prefix is
sorted; the detection error path yields an empty sequence. -/
theorem detect_projects_sorted_amended :
    (∀ (o : FSOracle) (root : List Char),
      (detectWorkspace o root).projects = [] ∨
      ∃ extra, (detectWorkspace o root).projects = scanForProjects o root ++ extra) ∧
    (∀ (o : FSOracle) (root : List Char),
      List.Pairwise (fun a b : Candidate => b.confidence ≤ a.confidence)
        (scanForProjects o root)) ∧
    (∀ (l : List Candidate) (q : Nat),
      (sortByConfidence l).filter (fun x => x.confidence == q) =
        l.filter (fun x => x.confidence == q)) := by
  refine ⟨?_, ?_, sortByConfidence_stable⟩
  · intro o root
    rcases detectWorkspace_shape o root with h | ⟨_, _, hex⟩ | ⟨_, hp, _⟩
    · exact Or.inl (by rw [h]; rfl)
    · exact Or.inr hex
    · exact Or.inr ⟨[], by rw [hp]; simp⟩
  · intro o root
    unfold scanForProjects
    cases o.readdirEntries root with
    | error e => simp
    | ok items =>
      dsimp only
      exact sortByConfidence_pairwise _

/-- C7: witness — the invariants applied to the concrete Lerna detection,
whose structure is `workspace`. -/
theorem detect_structure_invariants_witness :
    (detectWorkspace oC1 (("/r").data)).struct = StructureKind.workspace ∧
    (detectWorkspace oC1 (("/r").data)).isWorkspace = true :=
  ⟨by decide, (detect_structure_invariants oC1 (("/r").data)).1 (by decide)⟩

/-! ## C2: deduplication -/
theorem lernaSubdirs_nodup (o : FSOracle) (root cp : List Char) :
    ∀ (subdirs : List (List Char)) (det det' : Detection),
      lernaSubdirs o root cp subdirs det = Except.ok det' →
      (det.projects.map Candidate.path).Nodup →
      (det'.projects.map Candidate.path).Nodup := by
  intro subdirs
  induction subdirs with
  | nil =>
    intro det det' h hn
    cases h
    exact hn
  | cons sd rest ih =>
    intro det det' h hn
    simp only [lernaSubdirs] at h
    cases hsd : o.statIsDir (pjoin (pjoin root cp) sd) with
    | error e => rw [hsd] at h; cases h
    | ok isDir =>
      rw [hsd] at h
      dsimp only at h
      refine ih _ det' h ?_
      split
      · split
        · split
          · exact hn
          · next project heq hnotany =>
            dsimp only
            rw [List.map_append, List.nodup_append]
            refine ⟨hn, by simp, ?_⟩
            intro a ha hb
            simp only [List.map_cons, List.map_nil, List.mem_cons,
              List.not_mem_nil, or_false] at hb
            obtain ⟨p, hp, hpe⟩ := List.mem_map.mp ha
            exact hnotany (List.any_eq_true.mpr
              ⟨p, hp, decide_eq_true (by rw [hpe, hb])⟩)
        · exact hn
      · exact hn

theorem lernaPats_nodup (o : FSOracle) (root : List Char) :
    ∀ (pats : List (List Char)) (det det' : Detection),
      lernaPats o root pats det = Except.ok det' →
      (det.projects.map Candidate.path).Nodup →
      (det'.projects.map Candidate.path).Nodup := by
  intro pats
  induction pats with
  | nil =>
    intro det det' h hn
    cases h
    exact hn
  | cons pat rest ih =>
    intro det det' h hn
    simp only [lernaPats] at h
    cases hpe : o.pathExists (pjoin root (replaceFirst (("/*").data) [] pat)) with
    | error e => rw [hpe] at h; cases h
    | ok b =>
      rw [hpe] at h
      cases b with
      | false => exact ih det det' h hn
      | true =>
        dsimp only at h
        cases hrd : o.readdirNames (pjoin root (replaceFirst (("/*").data) [] pat)) with
        | error e => rw [hrd] at h; cases h
        | ok subdirs =>
          rw [hrd] at h
          dsimp only at h
          cases hls : lernaSubdirs o root (replaceFirst (("/*").data) [] pat) subdirs det with
          | error d => rw [hls] at h; cases h
          | ok det'' =>
            rw [hls] at h
            exact ih det'' det' h (lernaSubdirs_nodup o root _ subdirs det det'' hls hn)

/-- C2 (amended): deduplication happens only in the Lerna sub-analyzer and is
keyed on the candidate's relative `path` field, keeping the already-present
(scan-discovered) candidate: the analyzer only appends, and it preserves
distinctness of relative paths.  The VS Code sub-analyzer performs no
deduplication at all, so two entries of `projects` may share the same
normalized absolute path (see the counterexample). -/
theorem lerna_dedup_amended (o : FSOracle) (root : List Char) (det det' : Detection)
    (h : analyzeLernaWorkspace o root det = Except.ok det') :
    (∃ extra, det'.projects = det.projects ++ extra) ∧
    ((det.projects.map Candidate.path).Nodup →
      (det'.projects.map Candidate.path).Nodup) := by
  constructor
  · have hx := analyzeLernaWorkspace_extends o root det
    rw [h] at hx
    exact hx.2.2
  · intro hn
    unfold analyzeLernaWorkspace at h
    cases hwc : det.workspaceConfig with
    | none => rw [hwc] at h; cases h; exact hn
    | some cfg =>
      rw [hwc] at h
      dsimp only at h
      cases hpk : cfg.packages with
      | none => rw [hpk] at h; cases h; exact hn
      | some pkgs =>
        rw [hpk] at h
        dsimp only at h
        exact lernaPats_nodup o root pkgs _ det' h hn

/-- C2: counterexample.  Under `oC2` the final `projects` holds two entries
with the same normalized absolute path /r/sub: the scan-discovered one and
the convention-declared (VS Code) one — no deduplication keyed on absolute
path happens, and the convention-declared candidate does not replace the
scan-discovered one (both are kept). -/
theorem dedup_counterexample :
    ((detectWorkspace oC2 (("/r").data)).projects.map Candidate.absolutePath) =
      [("/r/sub").data, ("/r/sub").data] ∧
    ¬ ((detectWorkspace oC2 (("/r").data)).projects.map Candidate.absolutePath).Nodup ∧
    ((detectWorkspace oC2 (("/r").data)).projects.map Candidate.isExternal) =
      [false, true] := by
  refine ⟨by decide, by decide, by decide⟩

/-- C2: witness — the amended deduplication theorem applied to the concrete
Lerna run of `oC1`. -/
theorem lerna_dedup_witness :
    analyzeLernaWorkspace oC1 (("/r").data) detC2in = Except.ok detC2out ∧
    (∃ extra, detC2out.projects = detC2in.projects ++ extra) ∧
    ((detC2in.projects.map Candidate.path).Nodup →
      (detC2out.projects.map Candidate.path).Nodup) := by
  have h : analyzeLernaWorkspace oC1 (("/r").data) detC2in = Except.ok detC2out := by decide
  exact ⟨h, lerna_dedup_amended oC1 (("/r").data) detC2in detC2out h⟩

/-! ## C5: VS Code external naming -/
theorem analyze_fields (o : FSOracle) (d n : List Char) (c : Candidate)
    (h : analyzeProjectDirectory o d n = some c) :
    c.path = n ∧ c.absolutePath = d ∧ c.isExternal = false ∧
    c.name = jsOrOpt (o.extractName d c.type) n := by
  unfold analyzeProjectDirectory at h
  cases hs : scoreLoop o d projectIndicators ([], 0, 0, (("unknown").data)) with
  | error e => rw [hs] at h; cases h
  | ok st =>
    obtain ⟨inds, tot, mx, pty⟩ := st
    rw [hs] at h
    dsimp only at h
    by_cases h0 : tot = 0
    · rw [if_pos h0] at h; cases h
    · rw [if_neg h0] at h
      cases hst : o.stat d with
      | error e => rw [hst] at h; cases h
      | ok p =>
        obtain ⟨sz, mt⟩ := p
        rw [hst] at h
        have hc := (Option.some.inj h).symm
        subst hc
        exact ⟨rfl, rfl, rfl, rfl⟩

theorem vscodeFolders_mem (o : FSOracle) (root : List Char) :
    ∀ (folders : List WsFolder) (acc out : List Candidate),
      vscodeFolders o root folders acc = Except.ok out →
      ∀ c ∈ out, c ∈ acc ∨ ∃ f ∈ folders,
        c.isExternal = true ∧
        c.absolutePath = (if isAbsolutePath f.path then f.path else presolve root f.path) ∧
        c.path = jsOrOpt f.name (basename c.absolutePath) ∧
        c.name = jsOrOpt (o.extractName c.absolutePath c.type) c.path := by
  intro folders
  induction folders with
  | nil =>
    intro acc out h c hc
    cases h
    exact Or.inl hc
  | cons f rest ih =>
    intro acc out h c hc
    simp only [vscodeFolders] at h
    generalize habs : (if isAbsolutePath f.path then f.path else presolve root f.path) = ap at h
    cases hpe : o.pathExists ap with
    | error e => rw [hpe] at h; cases h
    | ok ex =>
      rw [hpe] at h
      dsimp only at h
      split at h
      · cases hana : analyzeProjectDirectory o ap (jsOrOpt f.name (basename ap)) with
        | some project =>
          rw [hana] at h
          rcases ih _ _ h c hc with hacc | ⟨f', hf', hprops⟩
          · rcases List.mem_append.mp hacc with hacc | hnew
            · exact Or.inl hacc
            · simp only [List.mem_cons, List.not_mem_nil, or_false] at hnew
              subst hnew
              obtain ⟨hp1, hp2, hp3, hp4⟩ := analyze_fields o _ _ project hana
              refine Or.inr ⟨f, List.mem_cons_self f rest, rfl, habs.symm, rfl, ?_⟩
              dsimp only
              rw [hp4]
          · exact Or.inr ⟨f', List.mem_cons_of_mem f hf', hprops⟩
        | none =>
          rw [hana] at h
          rcases ih _ _ h c hc with hacc | ⟨f', hf', hprops⟩
          · exact Or.inl hacc
          · exact Or.inr ⟨f', List.mem_cons_of_mem f hf', hprops⟩
      · rcases ih _ _ h c hc with hacc | ⟨f', hf', hprops⟩
        · exact Or.inl hacc
        · exact Or.inr ⟨f', List.mem_cons_of_mem f hf', hprops⟩

/-- C5 (amended): every entry the VS Code analyzer appends to `projects` has
`isExternal = true` and its `path` is the descriptor's declared display name
(falling back to the directory's base name when no name is declared) — but
its `name` is whatever `analyzeProjectDirectory` computed: the name declared
inside the external directory's own manifest when extraction succeeds, and
only otherwise the declared display name. -/
theorem vscode_external_naming_amended (o : FSOracle) (root : List Char)
    (det det' : Detection)
    (h : analyzeVSCodeWorkspace o root det = Except.ok det') :
    ∃ ext, det'.projects = det.projects ++ ext ∧
      ∀ c ∈ ext, c.isExternal = true ∧
        (∃ cfg folders f, det.workspaceConfig = some cfg ∧ cfg.folders = some folders ∧
          f ∈ folders ∧
          c.absolutePath = (if isAbsolutePath f.path then f.path
            else presolve root f.path) ∧
          c.path = jsOrOpt f.name (basename c.absolutePath)) ∧
        c.name = jsOrOpt (o.extractName c.absolutePath c.type) c.path := by
  unfold analyzeVSCodeWorkspace at h
  cases hwc : det.workspaceConfig with
  | none =>
    rw [hwc] at h
    cases h
    exact ⟨[], by simp, by simp⟩
  | some cfg =>
    rw [hwc] at h
    dsimp only at h
    cases hfo : cfg.folders with
    | none =>
      rw [hfo] at h
      cases h
      exact ⟨[], by simp, by simp⟩
    | some folders =>
      rw [hfo] at h
      dsimp only at h
      cases hvf : vscodeFolders o root folders [] with
      | error a => rw [hvf] at h; cases h
      | ok ext =>
        rw [hvf] at h
        cases h
        refine ⟨ext, rfl, ?_⟩
        intro c hc
        rcases vscodeFolders_mem o root folders [] ext hvf c hc with h0 | ⟨f, hf, h1, h2, h3, h4⟩
        · cases h0
        · exact ⟨h1, ⟨cfg, folders, f, rfl, hfo, hf, h2, h3⟩, h4⟩

/-- C5: counterexample.  The external entry's `path` is the declared display
name, but its `name` is the name extracted from the external directory's own
manifest ("pkg-real"), not the declared display name ("MyDisplay") — the
claim that `name` is taken from the descriptor and never from the external
manifest fails. -/
theorem vscode_external_name_counterexample :
    (detectWorkspace oC5 (("/r").data)).projects = [cExtC5] ∧
    cExtC5.isExternal = true ∧
    cExtC5.path = ("MyDisplay").data ∧
    cExtC5.name = ("pkg-real").data ∧
    cExtC5.name ≠ ("MyDisplay").data := by
  refine ⟨by decide, by decide, by decide, by decide, by decide⟩

/-- C5: witness — the amended naming theorem applied to the concrete VS Code
analyzer run of `oC5`. -/
theorem vscode_external_naming_witness :
    analyzeVSCodeWorkspace oC5 (("/r").data) detC5in = Except.ok detC5out ∧
    ∃ ext, detC5out.projects = detC5in.projects ++ ext ∧
      ∀ c ∈ ext, c.isExternal = true ∧
        (∃ cfg folders f, detC5in.workspaceConfig = some cfg ∧
          cfg.folders = some folders ∧ f ∈ folders ∧
          c.absolutePath = (if isAbsolutePath f.path then f.path
            else presolve (("/r").data) f.path) ∧
          c.path = jsOrOpt f.name (basename c.absolutePath)) ∧
        c.name = jsOrOpt (oC5.extractName c.absolutePath c.type) c.path := by
  have h : analyzeVSCodeWorkspace oC5 (("/r").data) detC5in = Except.ok detC5out := by decide
  exact ⟨h, vscode_external_naming_amended oC5 (("/r").data) detC5in detC5out h⟩
